import Mathlib

/-!
Verification of the IICS field-naming validator core (rule registry, rule
executor, validator engine, field manager, stats manager, validation
orchestrator, container detector) as a shallow embedding of the TypeScript
sources.  Timestamps (`Date.now()`, `new Date()`) are abstracted to `Option
Unit`, DOM elements are identified by their id strings, and the live DOM is
passed explicitly where the source reads `element.value`.
-/

namespace IICS

/-! ## Character classes (models of the JavaScript regexes) -/

/-- Model of the JavaScript `\s` character class (ECMAScript WhiteSpace and
LineTerminator), which is also exactly the set of characters stripped by
`String.prototype.trim`. -/
def isSpaceJS (c : Char) : Bool :=
  let n := c.toNat
  n == 9 || n == 10 || n == 11 || n == 12 || n == 13 || n == 32 ||
  n == 0xA0 || n == 0x1680 || (decide (0x2000 ≤ n) && decide (n ≤ 0x200A)) ||
  n == 0x2028 || n == 0x2029 || n == 0x202F || n == 0x205F || n == 0x3000 ||
  n == 0xFEFF

/-- `[A-Z]`. -/
def isUpperAZ (c : Char) : Bool :=
  decide (65 ≤ c.toNat) && decide (c.toNat ≤ 90)

/-- `[0-9]`. -/
def isDigitJS (c : Char) : Bool :=
  decide (48 ≤ c.toNat) && decide (c.toNat ≤ 57)

/-- `[A-Za-z0-9_]`. -/
def isWordChar (c : Char) : Bool :=
  isUpperAZ c || (decide (97 ≤ c.toNat) && decide (c.toNat ≤ 122)) ||
  isDigitJS c || c.toNat == 95

/-- Whether the character list contains two consecutive underscores,
modelling the test `/__/.test(value)`. -/
def hasDoubleUnderscore : List Char → Bool
  | [] => false
  | [_] => false
  | a :: b :: rest => (a == '_' && b == '_') || hasDoubleUnderscore (b :: rest)

/-! ## `String.prototype.trim` -/

/-- Strip leading JS whitespace. -/
def trimLeft (l : List Char) : List Char := l.dropWhile isSpaceJS

/-- Strip trailing JS whitespace. -/
def trimRight (l : List Char) : List Char := (l.reverse.dropWhile isSpaceJS).reverse

/-- Model of `value.trim()`. -/
def trimJS (s : String) : String := ⟨trimRight (trimLeft s.data)⟩

/-! ## ValidationRule and the rule registry (`validation-rules.ts`) -/

/-- `ValidationRule` from `shared/types/types.ts`: a named predicate with a
message and an optional numeric priority. -/
structure ValidationRule where
  name : String
  check : String → Bool
  message : String
  priority : Option Int := none

/-- The sort key used by `sortByPriority`: `a.priority ?? Number.MAX_SAFE_INTEGER`. -/
def priorityKey (r : ValidationRule) : Int :=
  r.priority.getD 9007199254740991

/-- One step of a stable insertion sort by `priorityKey`: the new element is
placed before the first element whose key is not smaller, so elements that
compare equal keep their original relative order. -/
def insertByPriority (r : ValidationRule) : List ValidationRule → List ValidationRule
  | [] => [r]
  | x :: xs =>
    if priorityKey r ≤ priorityKey x then r :: x :: xs
    else x :: insertByPriority r xs

/-- Model of `ValidationRules.sortByPriority`, i.e. of
`this.rules.sort((a, b) => priorityA - priorityB)`.  ECMAScript guarantees
`Array.prototype.sort` to be stable, so it is modelled by a stable sort. -/
def sortByPriority (rules : List ValidationRule) : List ValidationRule :=
  rules.foldr insertByPriority []

/-- The literal default rule array of `initializeDefaultRules`. -/
def defaultRulesRaw : List ValidationRule :=
  [ { name := "not-empty",
      check := fun value => decide (0 < value.length),
      message := "Field cannot be empty",
      priority := some 1 },
    { name := "starts-with-capital",
      check := fun value =>
        match value.data with
        | [] => false
        | c :: _ => isUpperAZ c,
      message := "Must start with capital letter",
      priority := some 2 },
    { name := "no-spaces",
      check := fun value => !(value.data.any isSpaceJS),
      message := "No spaces allowed",
      priority := some 3 },
    { name := "alphanumeric-underscore",
      check := fun value => !(value.data.isEmpty) && value.data.all isWordChar,
      message := "Only letters, numbers, and underscore allowed",
      priority := some 4 },
    { name := "min-length",
      check := fun value => decide (3 ≤ value.length),
      message := "Must be at least 3 characters",
      priority := some 5 },
    { name := "max-length",
      check := fun value => decide (value.length ≤ 50),
      message := "Cannot exceed 50 characters",
      priority := some 6 },
    { name := "no-trailing-underscore",
      check := fun value =>
        match value.data.getLast? with
        | some c => !(c == '_')
        | none => true,
      message := "Cannot end with underscore",
      priority := some 7 },
    { name := "no-consecutive-underscores",
      check := fun value => !(hasDoubleUnderscore value.data),
      message := "No consecutive underscores",
      priority := some 8 },
    { name := "no-leading-number",
      check := fun value =>
        match value.data with
        | [] => true
        | c :: _ => !(isDigitJS c),
      message := "Cannot start with number",
      priority := some 9 } ]

/-- `initializeDefaultRules`: assign the default array, then sort. -/
def defaultRules : List ValidationRule := sortByPriority defaultRulesRaw

/-- Overwrite the first rule carrying the given rule's name, keeping its
position (`this.rules[existingIndex] = rule`). -/
def replaceFirstByName (rule : ValidationRule) : List ValidationRule → List ValidationRule
  | [] => []
  | r :: rs =>
    if r.name == rule.name then rule :: rs
    else r :: replaceFirstByName rule rs

/-- `ValidationRules.add`: replace in place if a rule of the same name exists
(`findIndex ≥ 0`), otherwise push; then re-sort. -/
def addRule (rules : List ValidationRule) (rule : ValidationRule) : List ValidationRule :=
  if rules.any (fun r => r.name == rule.name) then
    sortByPriority (replaceFirstByName rule rules)
  else sortByPriority (rules ++ [rule])

/-- `ValidationRules.remove`: `findIndex` then `splice(index, 1)`, i.e.
remove the first rule of that name (no-op when absent). -/
def removeRule (rules : List ValidationRule) (name : String) : List ValidationRule :=
  rules.eraseP (fun rule => rule.name == name)

/-- `ValidationRules.getExcluding`. -/
def getExcluding (rules : List ValidationRule) (excludedNames : List String) :
    List ValidationRule :=
  rules.filter (fun rule => !(excludedNames.contains rule.name))

/-- A registry mutation: `add` (insert-or-overwrite-by-name) or `remove`. -/
inductive RuleOp where
  | add (rule : ValidationRule)
  | remove (name : String)

/-- Apply a sequence of registry operations to a rule list. -/
def applyOps (rules : List ValidationRule) : List RuleOp → List ValidationRule
  | [] => rules
  | RuleOp.add r :: ops => applyOps (addRule rules r) ops
  | RuleOp.remove n :: ops => applyOps (removeRule rules n) ops

/-- The registration-order list: a fresh add appends, a remove deletes the
first rule of that name.  Used to state the tie-breaking property. -/
def registrationList (reg : List ValidationRule) : List RuleOp → List ValidationRule
  | [] => reg
  | RuleOp.add r :: ops => registrationList (reg ++ [r]) ops
  | RuleOp.remove n :: ops =>
      registrationList (reg.eraseP (fun rule => rule.name == n)) ops

/-- Registration order under the reading that an overwrite keeps the rule's
original (first) registration position: `add` replaces in place when the
name is present and appends otherwise. -/
def registrationListKeepFirst (reg : List ValidationRule) :
    List RuleOp → List ValidationRule
  | [] => reg
  | RuleOp.add r :: ops =>
    if reg.any (fun x => x.name == r.name) then
      registrationListKeepFirst (replaceFirstByName r reg) ops
    else registrationListKeepFirst (reg ++ [r]) ops
  | RuleOp.remove n :: ops =>
      registrationListKeepFirst (reg.eraseP (fun rule => rule.name == n)) ops

/-- Registration order under the reading that an overwrite re-registers the
rule at the end: `add` deletes any rule of that name and appends. -/
def registrationListKeepLast (reg : List ValidationRule) :
    List RuleOp → List ValidationRule
  | [] => reg
  | RuleOp.add r :: ops =>
      registrationListKeepLast ((reg.eraseP (fun x => x.name == r.name)) ++ [r]) ops
  | RuleOp.remove n :: ops =>
      registrationListKeepLast (reg.eraseP (fun rule => rule.name == n)) ops

/-- Whether every `add` in the sequence is fresh, i.e. never overwrites an
existing name, along the states actually traversed by the registry. -/
def freshOps (rules : List ValidationRule) : List RuleOp → Bool
  | [] => true
  | RuleOp.add r :: ops =>
      !(rules.any (fun x => x.name == r.name)) && freshOps (addRule rules r) ops
  | RuleOp.remove n :: ops => freshOps (removeRule rules n) ops

/-! ## RuleExecutor and ValidatorEngine -/

/-- `RuleExecutor.executeRules`: run every rule, collecting the message of
every failing predicate. -/
def executeRules (value : String) (rules : List ValidationRule) : List String :=
  rules.foldl (fun errors rule =>
    if rule.check value then errors else errors ++ [rule.message]) []

/-- `RuleExecutor.executeRulesExcluding`. -/
def executeRulesExcluding (value : String) (rules : List ValidationRule)
    (excludedNames : List String) : List String :=
  executeRules value (rules.filter (fun rule => !(excludedNames.contains rule.name)))

/-- `ValidationResult` (timestamp abstracted away). -/
structure ValidationResult where
  isValid : Bool
  errors : List String
deriving DecidableEq, Repr

/-- `ValidatorEngine.validate` on the field's live string value: trim, apply
the empty-field optimization when enabled, then execute the rule set
(excluding `not-empty` exactly when the optimization is enabled). -/
def validate (enableEmptyFieldOptimization : Bool) (rules : List ValidationRule)
    (fieldValue : String) : ValidationResult :=
  let value := trimJS fieldValue
  if value.length = 0 && enableEmptyFieldOptimization then
    ⟨false, ["Field cannot be empty"]⟩
  else
    let rulesToExecute :=
      if enableEmptyFieldOptimization then getExcluding rules ["not-empty"]
      else rules
    let errors := executeRules value rulesToExecute
    ⟨errors.isEmpty, errors⟩

/-- `validate` in the default engine configuration
(`enableEmptyFieldOptimization := true`) against the default rule set. -/
def validateDefault (fieldValue : String) : ValidationResult :=
  validate true defaultRules fieldValue

/-! ## StatsManager (`stats-manager.ts`) and ValidationOrchestrator (batch
validation).  `new Date()` timestamps are abstracted to `Option Unit`. -/

/-- `ValidationStats`. -/
structure ValidationStats where
  totalFields : Nat
  validFields : Nat
  invalidFields : Nat
  lastValidated : Option Unit
deriving DecidableEq, Repr

/-- `StatsManager.reset`. -/
def resetStats : ValidationStats := ⟨0, 0, 0, none⟩

/-- `StatsManager.setTotal`. -/
def setTotal (stats : ValidationStats) (count : Nat) : ValidationStats :=
  { stats with totalFields := count }

/-- `StatsManager.incrementValid`. -/
def incrementValid (stats : ValidationStats) : ValidationStats :=
  { stats with validFields := stats.validFields + 1 }

/-- `StatsManager.incrementInvalid`. -/
def incrementInvalid (stats : ValidationStats) : ValidationStats :=
  { stats with invalidFields := stats.invalidFields + 1 }

/-- `StatsManager.markValidated`. -/
def markValidated (stats : ValidationStats) : ValidationStats :=
  { stats with lastValidated := some () }

/-- A tracked field as seen by the orchestrator: its id and the live value of
its DOM element. -/
structure FieldEntry where
  id : String
  value : String
deriving DecidableEq, Repr

/-- The per-field body of the batch loop in
`ValidationOrchestrator.validateInBatches`: validate the field, then update
the statistics.  The source reads
`if (!result.isValid) incrementValid() else incrementInvalid()`,
which is transcribed verbatim here. -/
def batchStep (stats : ValidationStats) (f : FieldEntry) : ValidationStats :=
  let result := validateDefault f.value
  if !result.isValid then incrementValid stats
  else incrementInvalid stats

/-- `validateInBatches`: slices of `batchSize = 20` processed per animation
frame; after the last batch `onValidationComplete` runs, of which the
statistics effect is `markValidated`. -/
def validateInBatches (fields : List FieldEntry) (currentBatch : Nat)
    (stats : ValidationStats) : ValidationStats :=
  let start := currentBatch * 20
  let stop := min (start + 20) fields.length
  let stats := ((fields.drop start).take (stop - start)).foldl batchStep stats
  if h : stop < fields.length then validateInBatches fields (currentBatch + 1) stats
  else markValidated stats
termination_by fields.length - currentBatch * 20
decreasing_by
  omega

/-- `ValidationOrchestrator.runFullValidation` restricted to its statistics
effect: on zero fields, show a notice and leave the statistics untouched;
otherwise reset, set the total, and run the batches. -/
def runFullValidation (fields : List FieldEntry) (stats : ValidationStats) :
    ValidationStats :=
  if fields.length = 0 then stats
  else validateInBatches fields 0 (setTotal resetStats fields.length)

/-! ## FieldManager (`field-manager.ts`).  The `Map` objects are modelled as
insertion-ordered association lists (`Map.set` overwrites in place or
appends; `Map.delete` removes the entry), the DOM as the list of `(id,
value)` pairs a container scan returns, and an element's live value as a
function from ids to strings. -/

/-- `FieldData` without the element reference: validation outcome (`null`
until first validated), error list, and last-validated timestamp. -/
structure FieldRecord where
  isValid : Option Bool
  errors : List String
  lastValidated : Nat
deriving DecidableEq, Repr

/-- `Map.prototype.has`. -/
def mapHas (m : List (String × β)) (k : String) : Bool :=
  m.any (fun p => p.1 == k)

/-- `Map.prototype.get`. -/
def mapGet (m : List (String × β)) (k : String) : Option β :=
  (m.find? (fun p => p.1 == k)).map (fun p => p.2)

/-- `Map.prototype.set`: overwrite in place if present, else append. -/
def mapSet (m : List (String × β)) (k : String) (v : β) : List (String × β) :=
  if mapHas m k then m.map (fun p => if p.1 == k then (k, v) else p)
  else m ++ [(k, v)]

/-- `Map.prototype.delete` (entry removal only). -/
def mapDelete (m : List (String × β)) (k : String) : List (String × β) :=
  m.eraseP (fun p => p.1 == k)

/-- The `FieldManager` state: `registeredFields` and the `lastValues`
snapshot map. -/
structure FMState where
  registeredFields : List (String × FieldRecord)
  lastValues : List (String × String)
deriving DecidableEq, Repr

/-- `registerField` as it affects the registry: store a fresh record.  (The
event-listener and observer side effects are outside the model.) -/
def registerField (m : List (String × FieldRecord)) (id : String) :
    List (String × FieldRecord) :=
  mapSet m id ⟨none, [], 0⟩

/-- The body of the `fields.forEach` in `scanAndRegister`: skip ids that are
already registered, otherwise register the field and snapshot its value,
counting the registration. -/
def registerStep (acc : FMState × Nat) (f : String × String) : FMState × Nat :=
  if mapHas acc.1.registeredFields f.1 then acc
  else (⟨registerField acc.1.registeredFields f.1,
         mapSet acc.1.lastValues f.1 f.2⟩, acc.2 + 1)

/-- `FieldManager.scanAndRegister` on the scan result `fields` (the `(id,
value)` pairs found in the container): register unseen ids (snapshotting
their value into `lastValues`), then unregister every tracked id absent from
the scan.  Returns the new state together with the number of registrations
and the number of unregistrations performed. -/
def scanAndRegister (s : FMState) (fields : List (String × String)) :
    FMState × Nat × Nat :=
  let currentFieldIds := fields.map Prod.fst
  let registered := fields.foldl registerStep (s, 0)
  let fieldsToRemove :=
    (registered.1.registeredFields.map Prod.fst).filter
      (fun id => !(currentFieldIds.contains id))
  let final : FMState :=
    { registered.1 with
      registeredFields :=
        fieldsToRemove.foldl (fun m id => mapDelete m id)
          registered.1.registeredFields }
  (final, registered.2, fieldsToRemove.length)

/-- `FieldManager.hasFieldChanged`: compare the element's live value (`dom
fieldId`) with the stored snapshot (`undefined` and the empty string both
read back as `""`), updating the snapshot when they differ. -/
def hasFieldChanged (dom : String → String) (s : FMState) (fieldId : String) :
    Bool × FMState :=
  match mapGet s.registeredFields fieldId with
  | none => (false, s)
  | some _ =>
    let currentValue := dom fieldId
    let lastValue := (mapGet s.lastValues fieldId).getD ""
    if currentValue ≠ lastValue then
      (true, { s with lastValues := mapSet s.lastValues fieldId currentValue })
    else (false, s)

/-- A `Partial<Omit<FieldData, "element">>` update object. -/
structure FieldDataUpdate where
  isValid : Option (Option Bool) := none
  errors : Option (List String) := none
  lastValidated : Option Nat := none

/-- `Object.assign(fieldData, updates)`. -/
def applyUpdate (r : FieldRecord) (u : FieldDataUpdate) : FieldRecord :=
  { isValid := u.isValid.getD r.isValid,
    errors := u.errors.getD r.errors,
    lastValidated := u.lastValidated.getD r.lastValidated }

/-- `FieldManager.updateFieldData`: merge into the existing record, doing
nothing when the id is unknown. -/
def updateFieldData (s : FMState) (fieldId : String) (updates : FieldDataUpdate) :
    FMState :=
  match mapGet s.registeredFields fieldId with
  | some _ =>
    let updated := s.registeredFields.map
      (fun p => if p.1 == fieldId then (p.1, applyUpdate p.2 updates) else p)
    { s with registeredFields := updated }
  | none => s

/-! ## ContainerDetector (`container-detector.ts`).  Containers are
identified by an abstract id; a scan observes either no qualifying subtree
or a container id together with its current field count.  The rate limiter,
retry timers and mutation batching are timing concerns outside the model;
`scanStep` is one fresh (non-rate-limited) scan.  The returned list collects
the arguments of the `onContextChange` notifications the step fires. -/

/-- Detector state relevant to classification: the active container
reference and the stored process-designer flag. -/
structure DetectorState where
  activeContainer : Option Nat
  isProcessDesigner : Bool
deriving DecidableEq, Repr

/-- `setProcessDesignerState`: flip the flag and notify only on change. -/
def setProcessDesignerState (s : DetectorState) (state : Bool) :
    DetectorState × List Bool :=
  if s.isProcessDesigner ≠ state then
    ({ s with isProcessDesigner := state }, [state])
  else (s, [])

/-- `detectContext`: with no active container force the flag to `false`;
otherwise classify by comparing the container's field count against the
`minFieldsForProcess` threshold, updating only on change. -/
def detectContext (s : DetectorState) (fieldCount : Nat) (threshold : Nat) :
    DetectorState × List Bool :=
  match s.activeContainer with
  | none => setProcessDesignerState s false
  | some _ =>
    let isProcessDesigner := decide (threshold ≤ fieldCount)
    if isProcessDesigner ≠ s.isProcessDesigner then
      setProcessDesignerState s isProcessDesigner
    else (s, [])

/-- `setActiveContainer`: store the new reference and run `detectContext`
exactly when the reference changed.  (The `onContainerChange` notification
is not tracked here.) -/
def setActiveContainer (s : DetectorState) (container : Option Nat)
    (fieldCount : Nat) (threshold : Nat) : DetectorState × List Bool :=
  let changed := s.activeContainer ≠ container
  let s1 : DetectorState := { s with activeContainer := container }
  if changed then detectContext s1 fieldCount threshold
  else (s1, [])

/-- One fresh scan (`updateActiveContainer` past the rate limiter): if no
qualifying subtree is observed, clear the container; if the observed
container differs from the active one, switch to it; otherwise leave the
state untouched (in particular `detectContext` does not run). -/
def scanStep (threshold : Nat) (s : DetectorState) (obs : Option (Nat × Nat)) :
    DetectorState × List Bool :=
  match obs with
  | none => setActiveContainer s none 0 threshold
  | some (c, n) =>
    if s.activeContainer ≠ some c then setActiveContainer s (some c) n threshold
    else (s, [])

/-- Run a sequence of fresh scans, concatenating the context-changed
notifications they fire. -/
def runScans (threshold : Nat) (s : DetectorState)
    (observations : List (Option (Nat × Nat))) : DetectorState × List Bool :=
  observations.foldl
    (fun acc obs =>
      let step := scanStep threshold acc.1 obs
      (step.1, acc.2 ++ step.2))
    (s, [])

/-! ## Lemmas about the stable sort and the rule registry -/

theorem insertByPriority_perm (r : ValidationRule) (l : List ValidationRule) :
    List.Perm (insertByPriority r l) (r :: l) := by
  induction l with
  | nil => exact List.Perm.refl _
  | cons x xs ih =>
    by_cases h : priorityKey r ≤ priorityKey x
    · simp only [insertByPriority, if_pos h]
      exact List.Perm.refl _
    · simp only [insertByPriority, if_neg h]
      exact (ih.cons x).trans (List.Perm.swap r x xs)

theorem sortByPriority_perm (l : List ValidationRule) :
    List.Perm (sortByPriority l) l := by
  induction l with
  | nil => exact List.Perm.refl _
  | cons a l ih =>
    exact (insertByPriority_perm a (sortByPriority l)).trans (ih.cons a)

theorem insertByPriority_pairwise {l : List ValidationRule}
    (hl : l.Pairwise (fun a b => priorityKey a ≤ priorityKey b))
    (r : ValidationRule) :
    (insertByPriority r l).Pairwise (fun a b => priorityKey a ≤ priorityKey b) := by
  induction l with
  | nil => simp [insertByPriority]
  | cons x xs ih =>
    rcases List.pairwise_cons.mp hl with ⟨hx, hxs⟩
    by_cases h : priorityKey r ≤ priorityKey x
    · simp only [insertByPriority, if_pos h]
      refine List.pairwise_cons.mpr ⟨?_, hl⟩
      intro b hb
      rcases List.mem_cons.mp hb with rfl | hb
      · exact h
      · exact le_trans h (hx b hb)
    · simp only [insertByPriority, if_neg h]
      refine List.pairwise_cons.mpr ⟨?_, ih hxs⟩
      intro b hb
      rcases List.mem_cons.mp ((insertByPriority_perm r xs).mem_iff.mp hb) with rfl | hb
      · exact le_of_lt (lt_of_not_le h)
      · exact hx b hb

theorem sortByPriority_pairwise (l : List ValidationRule) :
    (sortByPriority l).Pairwise (fun a b => priorityKey a ≤ priorityKey b) := by
  induction l with
  | nil => simp [sortByPriority]
  | cons a l ih => exact insertByPriority_pairwise ih a

/-- Inserting two rules with strictly increasing keys commutes. -/
theorem insertByPriority_comm {p a : ValidationRule}
    (h : priorityKey p < priorityKey a) (l : List ValidationRule) :
    insertByPriority p (insertByPriority a l) =
      insertByPriority a (insertByPriority p l) := by
  induction l with
  | nil =>
    simp [insertByPriority, not_le.mpr h, le_of_lt h]
  | cons x xs ih =>
    by_cases hax : priorityKey a ≤ priorityKey x
    · have hpx : priorityKey p ≤ priorityKey x := le_trans (le_of_lt h) hax
      simp [insertByPriority, hax, hpx, le_of_lt h, not_le.mpr h]
    · by_cases hpx : priorityKey p ≤ priorityKey x
      · simp [insertByPriority, hax, hpx, not_le.mpr h, le_of_lt h]
      · simp only [insertByPriority, if_neg hax, if_neg hpx]
        rw [ih]

/-- Folding an insertion-sorted list into an accumulator equals folding the
unsorted list: inserting an element early or late commutes. -/
theorem foldr_insert_insertByPriority (a : ValidationRule)
    (l : List ValidationRule) (acc : List ValidationRule) :
    (insertByPriority a l).foldr insertByPriority acc =
      insertByPriority a (l.foldr insertByPriority acc) := by
  induction l generalizing acc with
  | nil => simp [insertByPriority]
  | cons x xs ih =>
    by_cases h : priorityKey a ≤ priorityKey x
    · simp [insertByPriority, if_pos h]
    · simp only [insertByPriority, if_neg h, List.foldr_cons]
      rw [ih]
      exact insertByPriority_comm (lt_of_not_le h) _

/-- Stably sorting the input first does not change the result of an
insertion fold. -/
theorem foldr_insert_sortByPriority (l : List ValidationRule)
    (acc : List ValidationRule) :
    (sortByPriority l).foldr insertByPriority acc = l.foldr insertByPriority acc := by
  induction l generalizing acc with
  | nil => rfl
  | cons a l ih =>
    show ((insertByPriority a (sortByPriority l)).foldr insertByPriority acc) = _
    rw [foldr_insert_insertByPriority, ih]
    rfl

/-- Pushing onto an already stably-sorted list and re-sorting equals sorting
the push onto the original list. -/
theorem sortByPriority_sorted_append (l : List ValidationRule) (r : ValidationRule) :
    sortByPriority (sortByPriority l ++ [r]) = sortByPriority (l ++ [r]) := by
  simp only [sortByPriority, List.foldr_append]
  exact foldr_insert_sortByPriority l _

theorem eraseP_insertByPriority_pos {p : ValidationRule → Bool}
    {a : ValidationRule} (ha : p a = true) {m : List ValidationRule}
    (hm : ∀ x ∈ m, p x = false) :
    (insertByPriority a m).eraseP p = m := by
  induction m with
  | nil => simp [insertByPriority, List.eraseP_cons, ha]
  | cons y ys ih =>
    by_cases h : priorityKey a ≤ priorityKey y
    · simp [insertByPriority, if_pos h, List.eraseP_cons, ha]
    · have hy : p y = false := hm y (List.mem_cons_self y ys)
      simp only [insertByPriority, if_neg h, List.eraseP_cons, hy, Bool.cond_false]
      rw [ih (fun x hx => hm x (List.mem_cons_of_mem y hx))]

theorem eraseP_insertByPriority_neg {p : ValidationRule → Bool}
    {a : ValidationRule} (ha : p a = false) {m : List ValidationRule}
    (hm : m.Pairwise (fun a b => priorityKey a ≤ priorityKey b)) :
    (insertByPriority a m).eraseP p = insertByPriority a (m.eraseP p) := by
  induction m with
  | nil => simp [insertByPriority, List.eraseP_cons, ha]
  | cons y ys ih =>
    rcases List.pairwise_cons.mp hm with ⟨hy, hys⟩
    by_cases h : priorityKey a ≤ priorityKey y
    · simp only [insertByPriority, if_pos h, List.eraseP_cons, ha, Bool.cond_false]
      by_cases hpy : p y = true
      · simp only [hpy, Bool.cond_true]
        cases ys with
        | nil => rfl
        | cons z zs =>
          have haz : priorityKey a ≤ priorityKey z :=
            le_trans h (hy z (List.mem_cons_self z zs))
          simp [insertByPriority, haz]
      · have hpy2 : p y = false := Bool.eq_false_iff.mpr hpy
        simp [hpy2, insertByPriority, h, List.eraseP_cons]
    · simp only [insertByPriority, if_neg h, List.eraseP_cons]
      by_cases hpy : p y = true
      · simp [hpy, ha]
      · have hpy2 : p y = false := Bool.eq_false_iff.mpr hpy
        simp only [hpy2, Bool.cond_false]
        rw [ih hys]
        simp [insertByPriority, if_neg h]

/-- With at most one matching element, removing it commutes with the stable
sort. -/
theorem eraseP_sortByPriority {p : ValidationRule → Bool}
    {l : List ValidationRule} (hc : l.countP p ≤ 1) :
    (sortByPriority l).eraseP p = sortByPriority (l.eraseP p) := by
  induction l with
  | nil => rfl
  | cons a l ih =>
    by_cases ha : p a = true
    · have hcl : l.countP p = 0 := by
        have := List.countP_cons_of_pos p l ha
        omega
      have hnone : ∀ x ∈ sortByPriority l, p x = false := by
        intro x hx
        have hx2 := (sortByPriority_perm l).mem_iff.mp hx
        exact Bool.eq_false_iff.mpr (List.countP_eq_zero.mp hcl x hx2)
      have h1 : sortByPriority (a :: l) = insertByPriority a (sortByPriority l) := rfl
      rw [h1, eraseP_insertByPriority_pos ha hnone, List.eraseP_cons, ha]
      simp
    · have ha2 : p a = false := Bool.eq_false_iff.mpr ha
      have hcl : l.countP p ≤ 1 := by
        have := List.countP_cons_of_neg p l ha
        omega
      have h1 : sortByPriority (a :: l) = insertByPriority a (sortByPriority l) := rfl
      rw [h1, eraseP_insertByPriority_neg ha2 (sortByPriority_pairwise l), ih hcl,
        List.eraseP_cons, ha2]
      simp only [Bool.cond_false]
      rfl

/-- Replacing the first rule of the given name by a same-named rule leaves
the name list unchanged. -/
theorem map_name_replaceFirstByName (rule : ValidationRule)
    (l : List ValidationRule) :
    (replaceFirstByName rule l).map (fun r => r.name) = l.map (fun r => r.name) := by
  induction l with
  | nil => rfl
  | cons r rs ih =>
    by_cases h : (r.name == rule.name) = true
    · have heq : r.name = rule.name := eq_of_beq h
      simp [replaceFirstByName, h, heq]
    · simp only [replaceFirstByName, if_neg h, List.map_cons]
      rw [ih]

/-- Name uniqueness is preserved by `add`. -/
theorem names_nodup_addRule {rules : List ValidationRule}
    (hnd : (rules.map (fun r => r.name)).Nodup) (rule : ValidationRule) :
    ((addRule rules rule).map (fun r => r.name)).Nodup := by
  unfold addRule
  by_cases h : rules.any (fun r => r.name == rule.name) = true
  · rw [if_pos h]
    have hperm := (sortByPriority_perm (replaceFirstByName rule rules)).map
      (fun r => r.name)
    rw [hperm.nodup_iff, map_name_replaceFirstByName]
    exact hnd
  · rw [if_neg h]
    have hperm := (sortByPriority_perm (rules ++ [rule])).map (fun r => r.name)
    rw [hperm.nodup_iff, List.map_append, List.map_singleton]
    have hfresh : rule.name ∉ rules.map (fun r => r.name) := by
      intro hmem
      rcases List.mem_map.mp hmem with ⟨r, hr, hname⟩
      exact h (List.any_eq_true.mpr ⟨r, hr, beq_iff_eq.mpr hname⟩)
    simp only [List.nodup_append, List.nodup_singleton, List.disjoint_singleton]
    exact ⟨hnd, trivial, hfresh⟩

/-- Name uniqueness is preserved by `remove`. -/
theorem names_nodup_removeRule {rules : List ValidationRule}
    (hnd : (rules.map (fun r => r.name)).Nodup) (n : String) :
    ((removeRule rules n).map (fun r => r.name)).Nodup :=
  List.Nodup.sublist ((List.eraseP_sublist rules).map (fun r => r.name)) hnd

theorem names_nodup_applyOps {rules : List ValidationRule}
    (hnd : (rules.map (fun r => r.name)).Nodup) (ops : List RuleOp) :
    ((applyOps rules ops).map (fun r => r.name)).Nodup := by
  induction ops generalizing rules with
  | nil => exact hnd
  | cons op ops ih =>
    cases op with
    | add r => exact ih (names_nodup_addRule hnd r)
    | remove n => exact ih (names_nodup_removeRule hnd n)

theorem names_nodup_defaultRules :
    (defaultRules.map (fun r => r.name)).Nodup := by decide

theorem sortByPriority_defaultRules :
    sortByPriority defaultRules = defaultRules := rfl

/-- Every registry state reached from a sorted state stays sorted. -/
theorem addRule_pairwise (rules : List ValidationRule) (rule : ValidationRule) :
    (addRule rules rule).Pairwise (fun a b => priorityKey a ≤ priorityKey b) := by
  unfold addRule
  by_cases h : rules.any (fun r => r.name == rule.name) = true
  · rw [if_pos h]; exact sortByPriority_pairwise _
  · rw [if_neg h]; exact sortByPriority_pairwise _

theorem applyOps_pairwise {rules : List ValidationRule}
    (hs : rules.Pairwise (fun a b => priorityKey a ≤ priorityKey b))
    (ops : List RuleOp) :
    (applyOps rules ops).Pairwise (fun a b => priorityKey a ≤ priorityKey b) := by
  induction ops generalizing rules with
  | nil => exact hs
  | cons op ops ih =>
    cases op with
    | add r => exact ih (addRule_pairwise rules r)
    | remove n =>
      exact ih (List.Pairwise.sublist (List.eraseP_sublist rules) hs)

/-- Unique names bound the number of rules matching a given name by one. -/
theorem countP_name_le_one {l : List ValidationRule}
    (hnd : (l.map (fun r => r.name)).Nodup) (n : String) :
    l.countP (fun rule => rule.name == n) ≤ 1 := by
  induction l with
  | nil => simp [List.countP_nil]
  | cons a l ih =>
    rw [List.map_cons, List.nodup_cons] at hnd
    rcases hnd with ⟨hna, hnd⟩
    by_cases ha : (a.name == n) = true
    · have hzero : l.countP (fun rule => rule.name == n) = 0 := by
        rw [List.countP_eq_zero]
        intro x hx hxn
        have : x.name = n := eq_of_beq hxn
        have : a.name = x.name := (eq_of_beq ha).trans this.symm
        exact hna (this ▸ List.mem_map_of_mem (fun r => r.name) hx)
      rw [List.countP_cons_of_pos _ l ha, hzero]
    · rw [List.countP_cons_of_neg _ l ha]
      exact ih hnd

/-- On any prefix of operations whose adds are all fresh, the registry is
exactly the stable sort of the registration-order list. -/
theorem applyOps_fresh_aux (ops : List RuleOp) :
    ∀ reg : List ValidationRule,
      (reg.map (fun r => r.name)).Nodup →
      freshOps (sortByPriority reg) ops = true →
      applyOps (sortByPriority reg) ops = sortByPriority (registrationList reg ops) := by
  induction ops with
  | nil => intro reg _ _; rfl
  | cons op ops ih =>
    intro reg hnd hfresh
    cases op with
    | add r =>
      rw [freshOps, Bool.and_eq_true] at hfresh
      rcases hfresh with ⟨hany, htail⟩
      have hany2 : ((sortByPriority reg).any (fun x => x.name == r.name)) = false := by
        cases hv : (sortByPriority reg).any (fun x => x.name == r.name) with
        | false => rfl
        | true => rw [hv] at hany; exact absurd hany (by decide)
      have hstep : addRule (sortByPriority reg) r = sortByPriority (reg ++ [r]) := by
        unfold addRule
        rw [if_neg (by simp [hany2]), sortByPriority_sorted_append]
      have hnd2 : ((reg ++ [r]).map (fun x => x.name)).Nodup := by
        rw [List.map_append, List.map_singleton]
        have hfresh2 : r.name ∉ reg.map (fun x => x.name) := by
          intro hmem
          rcases List.mem_map.mp hmem with ⟨x, hx, hxn⟩
          have hx2 : x ∈ sortByPriority reg := (sortByPriority_perm reg).mem_iff.mpr hx
          have : (sortByPriority reg).any (fun x => x.name == r.name) = true :=
            List.any_eq_true.mpr ⟨x, hx2, beq_iff_eq.mpr hxn⟩
          rw [this] at hany2; exact Bool.true_eq_false.mp hany2
        simp only [List.nodup_append, List.nodup_singleton, List.disjoint_singleton]
        exact ⟨hnd, trivial, hfresh2⟩
      rw [applyOps, hstep]
      rw [hstep] at htail
      exact ih (reg ++ [r]) hnd2 htail
    | remove n =>
      rw [freshOps] at hfresh
      have hstep : removeRule (sortByPriority reg) n =
          sortByPriority (reg.eraseP (fun rule => rule.name == n)) := by
        unfold removeRule
        exact eraseP_sortByPriority (countP_name_le_one hnd n)
      have hnd2 : ((reg.eraseP (fun rule => rule.name == n)).map
          (fun x => x.name)).Nodup :=
        List.Nodup.sublist ((List.eraseP_sublist reg).map (fun x => x.name)) hnd
      rw [applyOps, hstep]
      rw [hstep] at hfresh
      exact ih _ hnd2 hfresh

/-- Accumulator form of `executeRules`. -/
theorem executeRules_foldl (value : String) (rules : List ValidationRule)
    (acc : List String) :
    rules.foldl (fun errors rule =>
        if rule.check value then errors else errors ++ [rule.message]) acc =
      acc ++ (rules.filter (fun r => !(r.check value))).map (fun r => r.message) := by
  induction rules generalizing acc with
  | nil => simp
  | cons r rs ih =>
    by_cases h : r.check value = true
    · simp [List.foldl_cons, h, ih]
    · have h2 : r.check value = false := Bool.eq_false_iff.mpr h
      simp [List.foldl_cons, h2, ih]

/-- `executeRules` returns exactly the failing rules' messages, in rule-list
order. -/
theorem executeRules_eq_filter (value : String) (rules : List ValidationRule) :
    executeRules value rules =
      (rules.filter (fun r => !(r.check value))).map (fun r => r.message) := by
  unfold executeRules
  rw [executeRules_foldl]
  rfl

/-! ## Fixtures for the rule-ordering counterexample: remove the defaults,
then add same-priority rules through an overwriting `add`. -/

/-- Removals emptying the default registry. -/
def cexRemoveDefaults : List RuleOp :=
  [RuleOp.remove "not-empty", RuleOp.remove "starts-with-capital",
   RuleOp.remove "no-spaces", RuleOp.remove "alphanumeric-underscore",
   RuleOp.remove "min-length", RuleOp.remove "max-length",
   RuleOp.remove "no-trailing-underscore",
   RuleOp.remove "no-consecutive-underscores", RuleOp.remove "no-leading-number"]

/-- Register rule `a` at priority 6, rule `b` at priority 5, then overwrite
`a` at priority 5: `a` was registered first yet ends up after `b`. -/
def cexOps1 : List RuleOp :=
  cexRemoveDefaults ++
  [RuleOp.add ⟨"a", fun _ => false, "message A", some 6⟩,
   RuleOp.add ⟨"b", fun _ => false, "message B", some 5⟩,
   RuleOp.add ⟨"a", fun _ => false, "message A2", some 5⟩]

/-- Register `a` at priority 1, `b` at 2, `c` at 3, then overwrite `a` at
priority 3: the overwritten `a` ends up before `c` although it was
re-registered last. -/
def cexOps2 : List RuleOp :=
  cexRemoveDefaults ++
  [RuleOp.add ⟨"a", fun _ => false, "message A", some 1⟩,
   RuleOp.add ⟨"b", fun _ => false, "message B", some 2⟩,
   RuleOp.add ⟨"c", fun _ => false, "message C", some 3⟩,
   RuleOp.add ⟨"a", fun _ => false, "message A2", some 3⟩]

/-- Fresh operations used to witness the registration-order statement: add a
rule under a new name and remove a default. -/
def freshWitnessOps : List RuleOp :=
  [RuleOp.add ⟨"custom", fun _ => true, "custom message", some 0⟩,
   RuleOp.remove "no-spaces"]

/-- C5: the claim's tie-breaking clause fails on overwriting adds, whichever
of its two readings is taken.  After `cexOps1` the engine reports the
equal-priority messages in the order `b`, `a` although `a` was first
registered before `b` (first-registration reading); after `cexOps2` it
reports `a` before `c` although `a` was re-registered after `c`
(last-registration reading).  The remaining clauses of the claim are proved
in the amended theorem. -/
theorem evaluate_tiebreak_counterexample :
    executeRules "x" (applyOps defaultRules cexOps1) =
      ["message B", "message A2"] ∧
    executeRules "x"
        (sortByPriority (registrationListKeepFirst defaultRules cexOps1)) =
      ["message A2", "message B"] ∧
    executeRules "x" (applyOps defaultRules cexOps2) =
      ["message B", "message A2", "message C"] ∧
    executeRules "x"
        (sortByPriority (registrationListKeepLast defaultRules cexOps2)) =
      ["message B", "message C", "message A2"] := by
  refine ⟨?_, ?_, ?_, ?_⟩ <;> rfl

/-- C5 (amended): for every operation sequence and value, `evaluate` returns
exactly the messages of the rules whose predicate rejects the value, in the
registry's order; the registry is sorted by ascending priority; each rule
contributes at most one message (rule names stay unique, so no rule occurs
twice); and whenever no `add` overwrote an existing name, the registry is
the stable sort of the registration-order list, so equal priorities are
reported in registration order.  (An overwriting `add` keeps the replaced
rule at its previous position instead, per the counterexample.) -/
theorem evaluate_messages_spec (ops : List RuleOp) (value : String) :
    executeRules value (applyOps defaultRules ops) =
      ((applyOps defaultRules ops).filter (fun r => !(r.check value))).map
        (fun r => r.message) ∧
    (applyOps defaultRules ops).Pairwise
      (fun a b => priorityKey a ≤ priorityKey b) ∧
    (((applyOps defaultRules ops).filter (fun r => !(r.check value))).map
        (fun r => r.name)).Nodup ∧
    (freshOps defaultRules ops = true →
      applyOps defaultRules ops =
        sortByPriority (registrationList defaultRules ops)) := by
  refine ⟨executeRules_eq_filter value _, ?_, ?_, ?_⟩
  · exact applyOps_pairwise (sortByPriority_pairwise defaultRulesRaw) ops
  · have hnd := names_nodup_applyOps names_nodup_defaultRules ops
    exact List.Nodup.sublist
      ((List.filter_sublist (applyOps defaultRules ops)).map (fun r => r.name)) hnd
  · intro hfresh
    have := applyOps_fresh_aux ops defaultRules names_nodup_defaultRules
    rw [sortByPriority_defaultRules] at this
    exact this hfresh

/-- Witness for C5 (amended): a concrete fresh operation sequence satisfying
the freshness hypothesis. -/
theorem evaluate_messages_spec_witness :
    freshOps defaultRules freshWitnessOps = true ∧
    applyOps defaultRules freshWitnessOps =
      sortByPriority (registrationList defaultRules freshWitnessOps) :=
  ⟨by decide, (evaluate_messages_spec freshWitnessOps "x").2.2.2 (by decide)⟩

/-- C8: starting from the default rule set, any sequence of add
(insert-or-overwrite-by-name) and remove operations leaves the rule names
unique. -/
theorem ruleNames_unique (ops : List RuleOp) :
    ((applyOps defaultRules ops).map (fun r => r.name)).Nodup :=
  names_nodup_applyOps names_nodup_defaultRules ops

/-- C2: false as stated — evaluating `"123Field"` against the default rule
set yields two failure messages, not one: the value starts with a digit, so
the `starts-with-capital` predicate (`/^[A-Z]/`) also rejects it. -/
theorem evaluate_123Field_counterexample :
    executeRules "123Field" defaultRules =
      ["Must start with capital letter", "Cannot start with number"] ∧
    ¬ (executeRules "123Field" defaultRules).length = 1 ∧
    ¬ (defaultRules.all (fun r =>
        r.name == "no-leading-number" || r.check "123Field")) = true := by
  refine ⟨rfl, by decide, by decide⟩

/-- C2 (amended): evaluating `"123Field"` yields exactly two failures — the
starts-with-capital message followed by the no-leading-digit message — and
every other default rule's predicate accepts the value.  The engine-level
`validate` reports the same two messages. -/
theorem evaluate_123Field_two_failures :
    executeRules "123Field" defaultRules =
      ["Must start with capital letter", "Cannot start with number"] ∧
    (defaultRules.filter (fun r => !(r.check "123Field"))).map (fun r => r.name) =
      ["starts-with-capital", "no-leading-number"] ∧
    validateDefault "123Field" =
      ⟨false, ["Must start with capital letter", "Cannot start with number"]⟩ := by
  refine ⟨rfl, rfl, rfl⟩

/-- C3: false as stated — on the empty string the two configurations agree
on the validity flag but not on the error-message list, so the observable
results are not identical. -/
theorem emptyOptimization_counterexample :
    validate true defaultRules "" ≠ validate false defaultRules "" := by decide

/-- C3 (amended): on the empty string the empty-field optimization preserves
the validity flag (both configurations report invalid) but replaces the four
rule failures of the full run (not-empty, starts-with-capital,
alphanumeric-or-underscore, min-length) by the single synthetic message. -/
theorem emptyOptimization_flag_only :
    (validate true defaultRules "").isValid = (validate false defaultRules "").isValid ∧
    validate true defaultRules "" = ⟨false, ["Field cannot be empty"]⟩ ∧
    validate false defaultRules "" =
      ⟨false, ["Field cannot be empty", "Must start with capital letter",
               "Only letters, numbers, and underscore allowed",
               "Must be at least 3 characters"]⟩ := by
  refine ⟨rfl, rfl, rfl⟩

/-! ## Lemmas about `trim` -/

theorem dropWhile_dropWhile_self (p : Char → Bool) (l : List Char) :
    (l.dropWhile p).dropWhile p = l.dropWhile p := by
  induction l with
  | nil => rfl
  | cons a l ih =>
    by_cases h : p a = true
    · simp [List.dropWhile_cons, h, ih]
    · simp [List.dropWhile_cons, h]

theorem dropWhile_append_char (p : Char → Bool) (xs ys : List Char) :
    (xs ++ ys).dropWhile p =
      if (xs.dropWhile p).isEmpty then ys.dropWhile p
      else xs.dropWhile p ++ ys := by
  induction xs with
  | nil => simp
  | cons x xs ih =>
    by_cases h : p x = true
    · simp [List.dropWhile_cons, h, ih]
    · simp [List.dropWhile_cons, h]

/-- Trailing trim of a list with a non-whitespace head keeps the head. -/
theorem trimRight_cons {a : Char} (ha : isSpaceJS a = false) (l : List Char) :
    ∃ t, trimRight (a :: l) = a :: t := by
  unfold trimRight
  rw [List.reverse_cons, dropWhile_append_char]
  by_cases h : (l.reverse.dropWhile isSpaceJS).isEmpty = true
  · rw [if_pos h]
    exact ⟨[], by simp [List.dropWhile_cons, ha]⟩
  · rw [if_neg h]
    exact ⟨(l.reverse.dropWhile isSpaceJS).reverse, by rw [List.reverse_append]; rfl⟩

theorem trimLeft_trimRight {m : List Char} (hm : trimLeft m = m) :
    trimLeft (trimRight m) = trimRight m := by
  cases m with
  | nil => rfl
  | cons a l =>
    have ha : isSpaceJS a = false := by
      cases hsp : isSpaceJS a with
      | false => rfl
      | true =>
        unfold trimLeft at hm
        rw [List.dropWhile_cons, if_pos hsp] at hm
        have hlen := congrArg List.length hm
        have hle := List.Sublist.length_le (List.dropWhile_sublist (l := l) isSpaceJS)
        simp only [List.length_cons] at hlen
        omega
    obtain ⟨t, ht⟩ := trimRight_cons ha l
    rw [ht]
    unfold trimLeft
    simp [List.dropWhile_cons, ha]

theorem trimRight_trimRight (m : List Char) :
    trimRight (trimRight m) = trimRight m := by
  unfold trimRight
  rw [List.reverse_reverse, dropWhile_dropWhile_self]

/-- `trim` is idempotent. -/
theorem trimJS_trimJS (s : String) : trimJS (trimJS s) = trimJS s := by
  unfold trimJS
  have hm : trimLeft (trimLeft s.data) = trimLeft s.data :=
    dropWhile_dropWhile_self isSpaceJS s.data
  have h1 : trimLeft (trimRight (trimLeft s.data)) = trimRight (trimLeft s.data) :=
    trimLeft_trimRight hm
  show String.mk (trimRight (trimLeft (trimRight (trimLeft s.data)))) = _
  rw [h1, trimRight_trimRight]

/-- `validate` in the default configuration on a value whose trim is empty. -/
theorem validateDefault_of_trim_empty {v : String} (h : (trimJS v).length = 0) :
    validateDefault v = ⟨false, ["Field cannot be empty"]⟩ := by
  unfold validateDefault validate
  rw [if_pos (by simp [h])]

/-- `validate` in the default configuration on a value whose trim is
non-empty: the full rule set minus `not-empty` runs on the trimmed value. -/
theorem validateDefault_of_trim_nonempty {v : String} (h : ¬ (trimJS v).length = 0) :
    validateDefault v =
      ⟨(executeRules (trimJS v) (getExcluding defaultRules ["not-empty"])).isEmpty,
       executeRules (trimJS v) (getExcluding defaultRules ["not-empty"])⟩ := by
  unfold validateDefault validate
  rw [if_neg (by simp [h])]
  rfl

/-- C10: validation acts on the trimmed field value — validating any value
gives the same result as validating its trim; a whitespace-only value is
treated as empty, yielding the single synthetic failure under the default
configuration; and when the trimmed value contains no whitespace (i.e. any
whitespace was only leading or trailing), the no-spaces message is never
reported. -/
theorem validate_trims (v : String) :
    validateDefault v = validateDefault (trimJS v) ∧
    (v.data.all isSpaceJS = true →
      validateDefault v = ⟨false, ["Field cannot be empty"]⟩) ∧
    ((trimJS v).data.any isSpaceJS = false →
      "No spaces allowed" ∉ (validateDefault v).errors) := by
  refine ⟨?_, ?_, ?_⟩
  · unfold validateDefault validate
    rw [trimJS_trimJS]
  · intro hall
    have htrim : trimJS v = "" := by
      unfold trimJS
      have h1 : trimLeft v.data = [] := by
        unfold trimLeft
        rw [List.dropWhile_eq_nil_iff]
        intro x hx
        exact List.all_eq_true.mp hall x hx
      rw [h1]
      rfl
    exact validateDefault_of_trim_empty (by rw [htrim]; rfl)
  · intro hany hmem
    by_cases hlen : (trimJS v).length = 0
    · rw [validateDefault_of_trim_empty hlen] at hmem
      simp at hmem
    · rw [validateDefault_of_trim_nonempty hlen] at hmem
      simp only at hmem
      rw [executeRules_eq_filter] at hmem
      rcases List.mem_map.mp hmem with ⟨r, hr, hmsg⟩
      rcases List.mem_filter.mp hr with ⟨hrmem, hcheck⟩
      have hrdef : r ∈ defaultRules := by
        unfold getExcluding at hrmem
        exact List.Sublist.mem hrmem (List.filter_sublist defaultRules)
      have hrraw : r ∈ defaultRulesRaw :=
        (sortByPriority_perm defaultRulesRaw).mem_iff.mp hrdef
      simp only [defaultRulesRaw, List.mem_cons, List.not_mem_nil, or_false] at hrraw
      rcases hrraw with rfl | rfl | rfl | rfl | rfl | rfl | rfl | rfl | rfl <;>
        first
          | exact absurd hmsg (by decide)
          | (simp only [Bool.not_not] at hcheck
             rw [hcheck] at hany
             exact Bool.true_eq_false.mp hany)

/-- Witness for C10 at the whitespace-only value `"   "`. -/
theorem validate_trims_witness :
    "   ".data.all isSpaceJS = true ∧
    (trimJS "   ").data.any isSpaceJS = false ∧
    validateDefault "   " = ⟨false, ["Field cannot be empty"]⟩ ∧
    "No spaces allowed" ∉ (validateDefault "   ").errors :=
  ⟨by decide, by decide, (validate_trims "   ").2.1 (by decide),
   (validate_trims "   ").2.2 (by decide)⟩

/-! ## Batch validation (C1) -/

/-- A field list fitting into a single batch is processed in one pass. -/
theorem validateInBatches_single (fields : List FieldEntry)
    (stats : ValidationStats) (h : fields.length ≤ 20) :
    validateInBatches fields 0 stats =
      markValidated (fields.foldl batchStep stats) := by
  rw [validateInBatches]
  have hmin : min (0 * 20 + 20) fields.length = fields.length :=
    Nat.min_eq_right (by omega)
  rw [hmin]
  rw [dif_neg (lt_irrefl fields.length)]
  simp [List.take_of_length_le (le_refl fields.length)]

/-- C1 is contradicted by the code: `validateInBatches` increments
`validFields` when a field FAILS validation and `invalidFields` when it
passes (the branches are inverted relative to `validateSingleField`, the
`ValidationStats` field documentation and the completion log).  Running a
full validation over one field whose value passes every rule yields
statistics `{1, 0, 1}` instead of the claimed `{1, 1, 0}`. -/
theorem runFullValidation_inverted_counts :
    (validateDefault "Account_ID_123").isValid = true ∧
    runFullValidation [⟨"field1", "Account_ID_123"⟩] ⟨0, 0, 0, none⟩ =
      ⟨1, 0, 1, some ()⟩ ∧
    ¬ (runFullValidation [⟨"field1", "Account_ID_123"⟩] ⟨0, 0, 0, none⟩).validFields
        = 1 := by
  have hrun : runFullValidation [⟨"field1", "Account_ID_123"⟩] ⟨0, 0, 0, none⟩ =
      ⟨1, 0, 1, some ()⟩ := by
    unfold runFullValidation
    rw [if_neg (by decide)]
    rw [validateInBatches_single _ _ (by decide)]
    decide
  refine ⟨by decide, hrun, ?_⟩
  rw [hrun]
  decide

/-! ## Container detector (C4) -/

/-- C4 is false as stated: when the same container stays active, a
threshold crossing between two fresh scans fires no context-changed
notification at all, because `detectContext` only runs when the container
reference changes.  Here the container (id 1) is first observed with 3
fields (below the threshold 5) and then with 10 fields (above it): the
notification list stays empty instead of containing one `true`. -/
theorem containerContext_missed_crossing :
    3 < 5 ∧ 5 ≤ 10 ∧
    (runScans 5 ⟨none, false⟩ [some (1, 3), some (1, 10)]).2 = [] ∧
    ¬ (runScans 5 ⟨none, false⟩ [some (1, 3), some (1, 10)]).2 = [true] := by
  refine ⟨by decide, by decide, rfl, by decide⟩

/-- C4 (amended): one fresh scan fires a context-changed notification
exactly when it changes the active-container reference to a subtree whose
classification differs from the stored flag (or drops the container while
the flag is set), and then exactly one notification carrying the new
classification; a scan that keeps the same container fires none, whatever
its field count. -/
theorem scanStep_notifications (threshold : Nat) (s : DetectorState)
    (obs : Option (Nat × Nat)) :
    (scanStep threshold s obs).2 =
      match obs with
      | some (c, n) =>
        if s.activeContainer ≠ some c ∧
            decide (threshold ≤ n) ≠ s.isProcessDesigner
        then [decide (threshold ≤ n)] else []
      | none =>
        if s.activeContainer ≠ none ∧ s.isProcessDesigner = true
        then [false] else [] := by
  rcases obs with _ | ⟨c, n⟩
  · by_cases hc : s.activeContainer ≠ none
    · cases hpd : s.isProcessDesigner with
      | false =>
        simp [scanStep, setActiveContainer, detectContext,
          setProcessDesignerState, hc, hpd]
      | true =>
        simp [scanStep, setActiveContainer, detectContext,
          setProcessDesignerState, hc, hpd]
    · simp [scanStep, setActiveContainer, detectContext,
        setProcessDesignerState, hc]
  · by_cases hc : s.activeContainer ≠ some c
    · by_cases hpd : decide (threshold ≤ n) ≠ s.isProcessDesigner
      · simp [scanStep, setActiveContainer, detectContext,
          setProcessDesignerState, hc, hpd, Ne.symm hpd]
      · simp [scanStep, setActiveContainer, detectContext,
          setProcessDesignerState, hc, hpd]
    · simp [scanStep, hc]

/-! ## Lemmas about the association-list maps and the field manager -/

theorem string_beq_comm (a b : String) : (a == b) = (b == a) := by
  by_cases h : a = b
  · simp [h]
  · simp [beq_eq_false_iff_ne, h, Ne.symm h]

theorem mapHas_iff_mem (m : List (String × β)) (k : String) :
    mapHas m k = true ↔ k ∈ m.map Prod.fst := by
  unfold mapHas
  rw [List.any_eq_true]
  constructor
  · rintro ⟨p, hp, hpk⟩
    exact List.mem_map.mpr ⟨p, hp, eq_of_beq hpk⟩
  · intro hk
    rcases List.mem_map.mp hk with ⟨p, hp, rfl⟩
    exact ⟨p, hp, by simp⟩

theorem map_fst_mapSet (m : List (String × β)) (k : String) (v : β) :
    (mapSet m k v).map Prod.fst =
      if mapHas m k then m.map Prod.fst else m.map Prod.fst ++ [k] := by
  unfold mapSet
  by_cases h : mapHas m k = true
  · rw [if_pos h, if_pos h, List.map_map]
    apply List.map_congr_left
    intro p _
    by_cases hp : (p.1 == k) = true
    · simp only [Function.comp_apply, if_pos hp]
      exact (eq_of_beq hp).symm
    · simp only [Function.comp_apply, if_neg hp]
  · rw [if_neg h, if_neg h, List.map_append]
    rfl

theorem map_fst_mapDelete (m : List (String × β)) (k : String) :
    (mapDelete m k).map Prod.fst = (m.map Prod.fst).erase k := by
  unfold mapDelete
  rw [List.erase_eq_eraseP, List.eraseP_map]
  have hfun : ((fun x => k == x) ∘ (Prod.fst : String × β → String)) =
      fun p : String × β => p.1 == k := by
    funext p
    exact string_beq_comm k p.1
  rw [hfun]

/-- Keys present after the registration pass: the old keys plus the scanned
ids. -/
theorem mem_registerStep_foldl (fields : List (String × String)) :
    ∀ (acc : FMState × Nat) (j : String),
      (j ∈ ((fields.foldl registerStep acc).1.registeredFields.map Prod.fst)) ↔
        (j ∈ acc.1.registeredFields.map Prod.fst ∨ j ∈ fields.map Prod.fst) := by
  induction fields with
  | nil => simp
  | cons f fs ih =>
    intro acc j
    rw [List.foldl_cons, ih (registerStep acc f) j]
    unfold registerStep
    by_cases h : mapHas acc.1.registeredFields f.1 = true
    · rw [if_pos h]
      simp only [List.map_cons, List.mem_cons]
      constructor
      · rintro (hj | hj)
        · exact Or.inl hj
        · exact Or.inr (Or.inr hj)
      · rintro (hj | rfl | hj)
        · exact Or.inl hj
        · exact Or.inl ((mapHas_iff_mem _ _).mp h)
        · exact Or.inr hj
    · rw [if_neg h]
      dsimp only
      unfold registerField
      rw [map_fst_mapSet, if_neg h]
      simp only [List.mem_append, List.mem_singleton, List.map_cons, List.mem_cons]
      tauto

/-- A scan whose ids are all registered already performs no registration and
leaves the state untouched. -/
theorem registerStep_foldl_of_has (fields : List (String × String)) :
    ∀ (s : FMState) (n : Nat),
      (∀ f ∈ fields, mapHas s.registeredFields f.1 = true) →
      fields.foldl registerStep (s, n) = (s, n) := by
  induction fields with
  | nil => intro s n _; rfl
  | cons f fs ih =>
    intro s n hall
    rw [List.foldl_cons]
    have h1 : registerStep (s, n) f = (s, n) := by
      unfold registerStep
      rw [if_pos (hall f (List.mem_cons_self f fs))]
    rw [h1]
    exact ih s n (fun g hg => hall g (List.mem_cons_of_mem f hg))

theorem nodup_registerStep_foldl (fields : List (String × String)) :
    ∀ acc : FMState × Nat,
      (acc.1.registeredFields.map Prod.fst).Nodup →
      ((fields.foldl registerStep acc).1.registeredFields.map Prod.fst).Nodup := by
  induction fields with
  | nil => intro acc h; exact h
  | cons f fs ih =>
    intro acc h
    rw [List.foldl_cons]
    apply ih
    unfold registerStep
    by_cases hh : mapHas acc.1.registeredFields f.1 = true
    · rw [if_pos hh]; exact h
    · rw [if_neg hh]
      dsimp only
      unfold registerField
      rw [map_fst_mapSet, if_neg hh]
      have hni : f.1 ∉ acc.1.registeredFields.map Prod.fst :=
        fun hmem => hh ((mapHas_iff_mem _ _).mpr hmem)
      simp [List.nodup_append, h, hni]

/-- Keys surviving the unregistration pass. -/
theorem mem_mapDelete_foldl (L : List String) :
    ∀ (m : List (String × FieldRecord)) (j : String),
      (m.map Prod.fst).Nodup →
      (j ∈ (L.foldl (fun m id => mapDelete m id) m).map Prod.fst ↔
        (j ∈ m.map Prod.fst ∧ j ∉ L)) := by
  induction L with
  | nil => simp
  | cons k L ih =>
    intro m j hnd
    rw [List.foldl_cons]
    have hnd2 : ((mapDelete m k).map Prod.fst).Nodup := by
      rw [map_fst_mapDelete]
      exact List.Nodup.erase k hnd
    rw [ih (mapDelete m k) j hnd2, map_fst_mapDelete,
      List.Nodup.mem_erase_iff hnd]
    constructor
    · rintro ⟨⟨hjk, hjm⟩, hjL⟩
      refine ⟨hjm, ?_⟩
      intro hj
      rcases List.mem_cons.mp hj with rfl | hj
      · exact hjk rfl
      · exact hjL hj
    · rintro ⟨hjm, hjL⟩
      refine ⟨⟨?_, hjm⟩, ?_⟩
      · intro hj
        exact hjL (hj ▸ List.mem_cons_self k L)
      · intro hj
        exact hjL (List.mem_cons_of_mem k hj)

/-- After a scan, the tracked ids are exactly the scanned ids. -/
theorem mem_scanAndRegister {s : FMState} (fields : List (String × String))
    (hnd : (s.registeredFields.map Prod.fst).Nodup) (j : String) :
    (j ∈ (scanAndRegister s fields).1.registeredFields.map Prod.fst) ↔
      j ∈ fields.map Prod.fst := by
  unfold scanAndRegister
  dsimp only
  have hndF : (((fields.foldl registerStep (s, 0)).1.registeredFields).map
      Prod.fst).Nodup := nodup_registerStep_foldl fields (s, 0) hnd
  rw [mem_mapDelete_foldl _ _ j hndF]
  rw [mem_registerStep_foldl fields (s, 0) j]
  constructor
  · rintro ⟨hjF, hjR⟩
    by_contra hjids
    apply hjR
    refine List.mem_filter.mpr ⟨?_, ?_⟩
    · rw [mem_registerStep_foldl fields (s, 0) j]
      exact hjF
    · simp only [Bool.not_eq_true', Bool.not_eq_true]
      cases hcon : (fields.map Prod.fst).contains j with
      | false => rfl
      | true => exact absurd (List.elem_iff.mp hcon) hjids
  · intro hjids
    refine ⟨Or.inr hjids, ?_⟩
    intro hjR
    rcases List.mem_filter.mp hjR with ⟨_, hcon⟩
    rw [Bool.not_eq_true'] at hcon
    have hc2 : (fields.map Prod.fst).contains j = true := List.elem_iff.mpr hjids
    rw [hcon] at hc2
    exact Bool.false_ne_true hc2

/-- C6: reconciliation is idempotent — a second scan of an unchanged
container performs zero registrations and zero unregistrations and leaves
the state unchanged.  The hypothesis says the starting registry is a
well-formed map (unique keys), which every real `Map` satisfies. -/
theorem scanAndRegister_idempotent (s : FMState) (fields : List (String × String))
    (hnd : (s.registeredFields.map Prod.fst).Nodup) :
    scanAndRegister (scanAndRegister s fields).1 fields =
      ((scanAndRegister s fields).1, 0, 0) := by
  obtain ⟨s1, hs1⟩ : ∃ s1, (scanAndRegister s fields).1 = s1 := ⟨_, rfl⟩
  rw [hs1]
  have hchar : ∀ j, (j ∈ s1.registeredFields.map Prod.fst) ↔
      j ∈ fields.map Prod.fst := by
    intro j
    rw [← hs1]
    exact mem_scanAndRegister fields hnd j
  have hhas : ∀ f ∈ fields, mapHas s1.registeredFields f.1 = true := by
    intro f hf
    exact (mapHas_iff_mem _ _).mpr
      ((hchar f.1).mpr (List.mem_map_of_mem Prod.fst hf))
  unfold scanAndRegister
  dsimp only
  rw [registerStep_foldl_of_has fields s1 0 hhas]
  have hrem : ((s1.registeredFields.map Prod.fst).filter
      (fun id => !((fields.map Prod.fst).contains id))) = [] := by
    rw [List.filter_eq_nil_iff]
    intro k hk
    have hkids : k ∈ fields.map Prod.fst := (hchar k).mp hk
    have h1 : (fields.map Prod.fst).contains k = true := List.elem_iff.mpr hkids
    rw [h1]
    decide
  rw [hrem]
  rfl

/-- Witness for C6: one already-tracked field, one new field. -/
theorem scanAndRegister_idempotent_witness :
    ((([("a", (⟨none, [], 0⟩ : FieldRecord))] : List (String × FieldRecord)).map
        Prod.fst).Nodup) ∧
    scanAndRegister
        (scanAndRegister ⟨[("a", ⟨none, [], 0⟩)], []⟩ [("a", "x"), ("b", "y")]).1
        [("a", "x"), ("b", "y")] =
      ((scanAndRegister ⟨[("a", ⟨none, [], 0⟩)], []⟩ [("a", "x"), ("b", "y")]).1,
        0, 0) :=
  ⟨by decide,
   scanAndRegister_idempotent ⟨[("a", ⟨none, [], 0⟩)], []⟩ [("a", "x"), ("b", "y")]
     (by decide)⟩

theorem find?_map_replace (m : List (String × β)) (k : String) (v : β)
    (h : mapHas m k = true) :
    (m.map (fun p => if p.1 == k then (k, v) else p)).find? (fun p => p.1 == k) =
      some (k, v) := by
  induction m with
  | nil => simp [mapHas] at h
  | cons a t ih =>
    by_cases ha : (a.1 == k) = true
    · rw [List.map_cons, if_pos ha]
      rw [List.find?_cons_of_pos]
      simp
    · rw [List.map_cons, if_neg ha]
      rw [List.find?_cons_of_neg _ (by simp [ha])]
      apply ih
      unfold mapHas at h
      rw [List.any_cons] at h
      rcases Bool.or_eq_true_iff.mp h with h1 | h1
      · exact absurd h1 ha
      · exact h1

/-- `Map.get` after `Map.set` of the same key returns the new value. -/
theorem mapGet_mapSet_self (m : List (String × β)) (k : String) (v : β) :
    mapGet (mapSet m k v) k = some v := by
  unfold mapSet
  by_cases h : mapHas m k = true
  · rw [if_pos h]
    unfold mapGet
    rw [find?_map_replace m k v h]
    rfl
  · rw [if_neg h]
    unfold mapGet
    have h0 : List.find? (fun p => p.1 == k) m = none := by
      rw [List.find?_eq_none]
      intro x hx hpx
      have h1 : mapHas m k = true := List.any_eq_true.mpr ⟨x, hx, hpx⟩
      rw [h1] at h
      exact h rfl
    rw [List.find?_append, h0]
    rw [List.find?_cons_of_pos _ (by simp)]
    rfl

/-- C7: `hasFieldChanged` reports a change at most once — after a call that
returned true, a second call with the same live DOM value returns false,
because the first call updated the stored snapshot. -/
theorem hasFieldChanged_once (dom : String → String) (s : FMState)
    (fieldId : String) (h : (hasFieldChanged dom s fieldId).1 = true) :
    (hasFieldChanged dom (hasFieldChanged dom s fieldId).2 fieldId).1 = false := by
  have hfst := h
  unfold hasFieldChanged at hfst
  cases hg : mapGet s.registeredFields fieldId with
  | none =>
    rw [hg] at hfst
    simp at hfst
  | some r =>
    rw [hg] at hfst
    by_cases hne : dom fieldId ≠ (mapGet s.lastValues fieldId).getD ""
    · have hs2 : (hasFieldChanged dom s fieldId).2 =
          { s with lastValues := mapSet s.lastValues fieldId (dom fieldId) } := by
        unfold hasFieldChanged
        rw [hg, if_pos hne]
      rw [hs2]
      unfold hasFieldChanged
      dsimp only
      rw [hg, mapGet_mapSet_self]
      rw [if_neg (fun hcon => hcon rfl)]
    · rw [if_neg hne] at hfst
      simp at hfst

/-- Witness for C7: the live value differs from the snapshot, so the first
call returns true; the second returns false. -/
theorem hasFieldChanged_once_witness :
    (hasFieldChanged (fun _ => "new")
        ⟨[("f", ⟨none, [], 0⟩)], [("f", "old")]⟩ "f").1 = true ∧
    (hasFieldChanged (fun _ => "new")
        (hasFieldChanged (fun _ => "new")
          ⟨[("f", ⟨none, [], 0⟩)], [("f", "old")]⟩ "f").2 "f").1 = false :=
  ⟨by decide, hasFieldChanged_once _ _ _ (by decide)⟩

theorem mapGet_eq_none_of_not_has {m : List (String × β)} {k : String}
    (h : mapHas m k = false) : mapGet m k = none := by
  unfold mapGet
  have h0 : List.find? (fun p => p.1 == k) m = none := by
    rw [List.find?_eq_none]
    intro x hx hpx
    have h1 : mapHas m k = true := List.any_eq_true.mpr ⟨x, hx, hpx⟩
    rw [h1] at h
    exact Bool.noConfusion h
  rw [h0]
  rfl

/-- C9: `updateFieldData` on an unregistered id is a no-op: it returns (no
exception is modelled because none can occur) and the state is unchanged,
so every existing record is untouched. -/
theorem updateFieldData_unknown (s : FMState) (fieldId : String)
    (updates : FieldDataUpdate)
    (h : mapHas s.registeredFields fieldId = false) :
    updateFieldData s fieldId updates = s := by
  unfold updateFieldData
  rw [mapGet_eq_none_of_not_has h]

/-- Witness for C9: updating the unknown id `"b"` leaves the registry with
its single record for `"a"` unchanged. -/
theorem updateFieldData_unknown_witness :
    mapHas ([("a", (⟨none, [], 0⟩ : FieldRecord))]) "b" = false ∧
    updateFieldData ⟨[("a", ⟨none, [], 0⟩)], []⟩ "b"
        ⟨some (some true), some ["x"], some 5⟩ =
      ⟨[("a", ⟨none, [], 0⟩)], []⟩ :=
  ⟨by decide, updateFieldData_unknown _ _ _ (by decide)⟩

end IICS
